import Mathlib

/-!
Verification of the bencode decoder in src/lib.rs (crate bencode-rs).

The decoder is embedded shallowly: bytes are naturals 0..255, Rust `String`
values are represented by their byte sequences, `HashMap` by an association
list with replace-on-insert, and the recursive `decode` function by a
fuel-indexed family `decodeCore` (the fuel `2 * input.length + 2` strictly
dominates the number of recursive calls, each of which consumes at least one
input byte).  A Rust panic (index out of bounds while scanning for a
terminator, or `unwrap` on a `from_utf8` failure) is modelled by the explicit
outcome `DecodeResult.panic`.
-/

/-- The public value type `BValue` of src/lib.rs: note the fifth variant
`None`, the internal "terminator reached" signal, is part of the public
enum.  `Str` holds the bytes of the decoded Rust `String`. -/
inductive BValue where
  | Str : List Nat → BValue
  | Int : Int → BValue
  | List : List BValue → BValue
  | Dict : List (List Nat × BValue) → BValue
  | None : BValue

/-- Outcome of a call to `decode`: `Ok((value, consumed))`, `Err(msg)`, a
Rust panic, or exhaustion of the modelling fuel (never reached for the fuel
used by `decode`). -/
inductive DecodeResult where
  | ok : BValue → Nat → DecodeResult
  | err : String → DecodeResult
  | panic : DecodeResult
  | fuelOut : DecodeResult

/-- Is the result an `Ok`? -/
def isOk : DecodeResult → Bool
  | .ok _ _ => true
  | _ => false

/-- Is the value one of the four variants the spec calls public
(Integer, ByteString, List, Dictionary)? -/
def isPublicVariant : BValue → Bool
  | .None => false
  | _ => true

/-- Offset of the first occurrence of byte `t`, or `none` when the scan
runs off the end of the input (which in the Rust source is an index out of
bounds, i.e. a panic). -/
def scanFor (t : Nat) : List Nat → Option Nat
  | [] => none
  | b :: rest => if b = t then some 0 else (scanFor t rest).map (fun k => k + 1)

/-- Accumulating decimal parser over ASCII digit bytes; `none` on the first
non-digit byte.  Models the digit loop of Rust integer `from_str`. -/
def parseDigitsAux : Nat → List Nat → Option Nat
  | acc, [] => some acc
  | acc, b :: rest =>
    if 48 ≤ b ∧ b ≤ 57 then parseDigitsAux (acc * 10 + (b - 48)) rest else none

/-- Decimal parse of a non-empty all-digit byte sequence. -/
def parseDigits : List Nat → Option Nat
  | [] => none
  | bs => parseDigitsAux 0 bs

/-- Rust `str::parse::<i16>` over the bytes of the string: an optional sign
(`+` or `-`, bytes 43 and 45) followed by at least one ASCII digit, value
within the 16-bit two-complement range.  Overflow during accumulation in
Rust is equivalent to a final-value range check because the accumulator is
monotone. -/
def parseI16 : List Nat → Option Int
  | [] => none
  | b :: rest =>
    if b = 43 then
      match parseDigits rest with
      | some v => if v ≤ 32767 then some (v : Int) else none
      | none => none
    else if b = 45 then
      match parseDigits rest with
      | some v => if v ≤ 32768 then some (-(v : Int)) else none
      | none => none
    else
      match parseDigits (b :: rest) with
      | some v => if v ≤ 32767 then some (v : Int) else none
      | none => none

/-- Rust `String::from_utf8_lossy(prefix).parse::<usize>()`: since the lossy
conversion maps ASCII bytes to themselves and any byte above 127 to
non-ASCII output, the parse succeeds exactly when the raw bytes are an
optional `+` followed by digits, with the value below 2^64. -/
def parseUsizeLossy (bs : List Nat) : Option Nat :=
  match bs with
  | 43 :: rest =>
    match parseDigits rest with
    | some v => if v < 2 ^ 64 then some v else none
    | none => none
  | _ =>
    match parseDigits bs with
    | some v => if v < 2 ^ 64 then some v else none
    | none => none

/-- Standard UTF-8 validity of a byte sequence, as checked by Rust
`String::from_utf8`. -/
def validUtf8 : List Nat → Bool
  | [] => true
  | b :: rest =>
    if b ≤ 127 then validUtf8 rest
    else if 194 ≤ b ∧ b ≤ 223 then
      match rest with
      | b1 :: r => if 128 ≤ b1 ∧ b1 ≤ 191 then validUtf8 r else false
      | [] => false
    else if b = 224 then
      match rest with
      | b1 :: b2 :: r =>
        if (160 ≤ b1 ∧ b1 ≤ 191) ∧ (128 ≤ b2 ∧ b2 ≤ 191) then validUtf8 r else false
      | _ => false
    else if (225 ≤ b ∧ b ≤ 236) ∨ b = 238 ∨ b = 239 then
      match rest with
      | b1 :: b2 :: r =>
        if (128 ≤ b1 ∧ b1 ≤ 191) ∧ (128 ≤ b2 ∧ b2 ≤ 191) then validUtf8 r else false
      | _ => false
    else if b = 237 then
      match rest with
      | b1 :: b2 :: r =>
        if (128 ≤ b1 ∧ b1 ≤ 159) ∧ (128 ≤ b2 ∧ b2 ≤ 191) then validUtf8 r else false
      | _ => false
    else if b = 240 then
      match rest with
      | b1 :: b2 :: b3 :: r =>
        if (144 ≤ b1 ∧ b1 ≤ 191) ∧ (128 ≤ b2 ∧ b2 ≤ 191) ∧ (128 ≤ b3 ∧ b3 ≤ 191) then
          validUtf8 r else false
      | _ => false
    else if 241 ≤ b ∧ b ≤ 243 then
      match rest with
      | b1 :: b2 :: b3 :: r =>
        if (128 ≤ b1 ∧ b1 ≤ 191) ∧ (128 ≤ b2 ∧ b2 ≤ 191) ∧ (128 ≤ b3 ∧ b3 ≤ 191) then
          validUtf8 r else false
      | _ => false
    else if b = 244 then
      match rest with
      | b1 :: b2 :: b3 :: r =>
        if (128 ≤ b1 ∧ b1 ≤ 143) ∧ (128 ≤ b2 ∧ b2 ≤ 191) ∧ (128 ≤ b3 ∧ b3 ≤ 191) then
          validUtf8 r else false
      | _ => false
    else false

/-- Rust `HashMap::insert` restricted to what the decoder observes: replace
the value when the key is present, otherwise add the pair. -/
def hmInsert (m : List (List Nat × BValue)) (k : List Nat) (v : BValue) :
    List (List Nat × BValue) :=
  match m with
  | [] => [(k, v)]
  | (k1, v1) :: rest => if k1 = k then (k, v) :: rest else (k1, v1) :: hmInsert rest k v

mutual

/-- Fuel-indexed embedding of `decode` from src/lib.rs.  Dispatch on the
first byte: 101 `e` yields the `None` signal, 105 `i` the integer branch,
108 `l` the list loop, 100 `d` the dictionary loop, anything else the
string branch (which scans the whole input, including the first byte, for
the colon 58). -/
def decodeCore : Nat → List Nat → DecodeResult
  | 0, _ => .fuelOut
  | _ + 1, [] => .err "Decoding Err. Invalid input length."
  | fuel + 1, b :: rest =>
    if b = 101 then
      .ok .None 1
    else if b = 105 then
      match scanFor 101 rest with
      | none => .panic
      | some k =>
        if rest.take k = [] then .err "Decoding Error: Empty Integer Not-allowed."
        else
          match parseI16 (rest.take k) with
          | none => .err "Decoding Error: Ill-formatted Integer."
          | some m => .ok (.Int m) (k + 2)
    else if b = 108 then
      decodeList fuel (b :: rest) 1 []
    else if b = 100 then
      decodeDict fuel (b :: rest) 1 [] none none
    else
      match scanFor 58 (b :: rest) with
      | none => .panic
      | some k =>
        match parseUsizeLossy ((b :: rest).take k) with
        | none => .err "Decoding Error. Invalid string length."
        | some len =>
          if k + 1 + len ≤ (b :: rest).length then
            if validUtf8 (((b :: rest).drop (k + 1)).take len) then
              .ok (.Str (((b :: rest).drop (k + 1)).take len)) (k + 1 + len)
            else .panic
          else .err "Decoding Error. Invalid string length."

/-- The list loop of `decode`: repeatedly decode from offset `idx`,
appending values until the `None` signal arrives. -/
def decodeList : Nat → List Nat → Nat → List BValue → DecodeResult
  | 0, _, _, _ => .fuelOut
  | fuel + 1, input, idx, acc =>
    match decodeCore fuel (input.drop idx) with
    | .ok value c =>
      match value with
      | .None => .ok (.List acc) (idx + c)
      | v => decodeList fuel input (idx + c) (acc ++ [v])
    | r => r

/-- The dictionary loop of `decode`, carrying the `key_val` pair of
optional slots: a decoded `Str` fills the key slot when that slot is empty,
any other value (including a `Str` arriving while the key slot is full)
overwrites the value slot; when both slots are full the pair is inserted
and the slots reset.  The `None` signal returns the dictionary built so
far, silently dropping an unpaired key. -/
def decodeDict : Nat → List Nat → Nat → List (List Nat × BValue) →
    Option (List Nat) → Option BValue → DecodeResult
  | 0, _, _, _, _, _ => .fuelOut
  | fuel + 1, input, idx, dict, kslot, vslot =>
    match decodeCore fuel (input.drop idx) with
    | .ok value c =>
      match value with
      | .None => .ok (.Dict dict) (idx + c)
      | val =>
        match
          (match val, kslot with
           | .Str s, none => (some s, vslot)
           | v, _ => (kslot, some v)) with
        | (some k, some v) => decodeDict fuel input (idx + c) (hmInsert dict k v) none none
        | (k1, v1) => decodeDict fuel input (idx + c) dict k1 v1
    | r => r

end

/-- The public entry point `decode` of src/lib.rs.  The fuel strictly
exceeds the number of recursive calls and loop iterations on any input,
since each costs at least one byte of input. -/
def decode (input : List Nat) : DecodeResult :=
  decodeCore (2 * input.length + 2) input

/-- ASCII bytes of a string literal (used only on ASCII literals, where
character codes and UTF-8 bytes coincide). -/
def strBytes (s : String) : List Nat := s.data.map Char.toNat

/-- Decimal ASCII digits of `n`, most significant first, with enough fuel
to exhaust the number. -/
def natAsciiAux : Nat → Nat → List Nat
  | 0, _ => []
  | fuel + 1, n => if n = 0 then [] else natAsciiAux fuel (n / 10) ++ [n % 10 + 48]

/-- Decimal ASCII digits of a positive `n`, most significant first. -/
def natAscii (n : Nat) : List Nat := natAsciiAux (n + 1) n

/-- The canonical bencode literal `i<n>e` for an integer `n`. -/
def intLiteral (n : Int) : List Nat :=
  105 :: ((if n < 0 then [45] else []) ++
    (if n = 0 then [48] else natAscii n.natAbs) ++ [101])

theorem scanFor_lt {t : Nat} : ∀ {l : List Nat} {k : Nat}, scanFor t l = some k → k < l.length := by
  intro l
  induction l with
  | nil => intro k h; simp [scanFor] at h
  | cons b rest ih =>
    intro k h
    simp only [scanFor] at h
    split at h
    · cases h; simp
    · match hs : scanFor t rest with
      | none => rw [hs] at h; simp at h
      | some j =>
        rw [hs] at h
        simp at h
        have := ih hs
        simp
        omega

theorem consumedBounds : ∀ fuel : Nat,
    (∀ input v n, decodeCore fuel input = .ok v n → 1 ≤ n ∧ n ≤ input.length) ∧
    (∀ input idx acc v n, idx ≤ input.length →
      decodeList fuel input idx acc = .ok v n → 1 ≤ n ∧ n ≤ input.length) ∧
    (∀ input idx dict ks vs v n, idx ≤ input.length →
      decodeDict fuel input idx dict ks vs = .ok v n → 1 ≤ n ∧ n ≤ input.length) := by
  intro fuel
  induction fuel with
  | zero =>
    refine ⟨?_, ?_, ?_⟩ <;> intros <;>
      simp_all [decodeCore, decodeList, decodeDict]
  | succ f ih =>
    obtain ⟨ihC, ihL, ihD⟩ := ih
    refine ⟨?_, ?_, ?_⟩
    · intro input v n h
      match input with
      | [] => simp [decodeCore] at h
      | b :: rest =>
        simp only [decodeCore] at h
        split at h
        · -- terminator byte
          cases h
          simp
        · split at h
          · -- integer branch
            split at h
            · simp at h
            · rename_i k hscan
              split at h
              · simp at h
              · split at h
                · simp at h
                · cases h
                  have := scanFor_lt hscan
                  simp
                  omega
          · split at h
            · -- list branch
              exact ihL _ _ _ _ _ (by simp) h
            · split at h
              · -- dict branch
                exact ihD _ _ _ _ _ _ _ (by simp) h
              · -- string branch
                split at h
                · simp at h
                · rename_i k hscan
                  split at h
                  · simp at h
                  · rename_i len hparse
                    split at h
                    · split at h
                      · cases h
                        rename_i hle _
                        simp at hle ⊢
                        omega
                      · simp at h
                    · simp at h
    · intro input idx acc v n hidx h
      simp only [decodeList] at h
      split at h
      · rename_i value c heq
        have hc := ihC _ _ _ heq
        simp only [List.length_drop] at hc
        have hb : idx + c ≤ input.length := by omega
        split at h
        · cases h
          omega
        all_goals exact ihL _ _ _ _ _ hb h
      all_goals simp_all
    · intro input idx dict ks vs v n hidx h
      simp only [decodeDict] at h
      split at h
      · rename_i value c heq
        have hc := ihC _ _ _ heq
        simp only [List.length_drop] at hc
        have hb : idx + c ≤ input.length := by omega
        split at h
        · cases h
          omega
        all_goals
          first
            | exact ihD _ _ _ _ _ _ _ hb h
            | (cases value <;> cases ks <;> cases vs <;> exact ihD _ _ _ _ _ _ _ hb h)
      all_goals simp_all

theorem natAsciiAux_zero : ∀ fuel : Nat, natAsciiAux fuel 0 = [] := by
  intro fuel; cases fuel <;> simp [natAsciiAux]

theorem natAsciiAux_digits : ∀ (fuel n b : Nat), b ∈ natAsciiAux fuel n → 48 ≤ b ∧ b ≤ 57 := by
  intro fuel
  induction fuel with
  | zero => intro n b h; simp [natAsciiAux] at h
  | succ f ih =>
    intro n b h
    simp only [natAsciiAux] at h
    split at h
    · simp at h
    · simp only [List.mem_append, List.mem_singleton] at h
      rcases h with h | h
      · exact ih _ _ h
      · subst h; omega

theorem natAscii_ne_nil (n : Nat) (h : 0 < n) : natAscii n ≠ [] := by
  simp only [natAscii, natAsciiAux]
  rw [if_neg (by omega : ¬ n = 0)]
  simp

theorem parseDigitsAux_append : ∀ (l1 l2 : List Nat) (acc : Nat),
    parseDigitsAux acc (l1 ++ l2) =
      match parseDigitsAux acc l1 with
      | some a => parseDigitsAux a l2
      | none => none := by
  intro l1
  induction l1 with
  | nil => intro l2 acc; simp [parseDigitsAux]
  | cons b t ih =>
    intro l2 acc
    simp only [List.cons_append, parseDigitsAux]
    split
    · exact ih l2 _
    · rfl

theorem parseDigitsAux_natAsciiAux : ∀ (fuel n acc : Nat), n < 10 ^ fuel →
    parseDigitsAux acc (natAsciiAux fuel n) =
      some (acc * 10 ^ (natAsciiAux fuel n).length + n) := by
  intro fuel
  induction fuel with
  | zero =>
    intro n acc h
    have : n = 0 := by simpa using h
    subst this
    simp [natAsciiAux, parseDigitsAux]
  | succ f ih =>
    intro n acc h
    by_cases hn : n = 0
    · subst hn; simp [natAsciiAux, parseDigitsAux]
    · simp only [natAsciiAux, if_neg hn]
      rw [parseDigitsAux_append]
      have hdiv : n / 10 < 10 ^ f := by
        rw [Nat.div_lt_iff_lt_mul (by norm_num : 0 < 10)]
        calc n < 10 ^ (f + 1) := h
          _ = 10 ^ f * 10 := by rw [pow_succ]
      rw [ih (n / 10) acc hdiv]
      simp only [parseDigitsAux]
      rw [if_pos (by omega : 48 ≤ n % 10 + 48 ∧ n % 10 + 48 ≤ 57)]
      simp only [List.length_append, List.length_singleton]
      have hmod : n % 10 + 48 - 48 = n % 10 := by omega
      rw [hmod, pow_succ]
      congr 1
      calc (acc * 10 ^ (natAsciiAux f (n / 10)).length + n / 10) * 10 + n % 10
          = acc * (10 ^ (natAsciiAux f (n / 10)).length * 10) + (n / 10 * 10 + n % 10) := by
            ring
        _ = acc * (10 ^ (natAsciiAux f (n / 10)).length * 10) + n := by
            congr 1
            omega

theorem lt_ten_pow (n : Nat) : n < 10 ^ (n + 1) := by
  calc n < 10 ^ n := Nat.lt_pow_self (by norm_num) n
    _ ≤ 10 ^ (n + 1) := Nat.pow_le_pow_right (by norm_num) (by omega)

theorem parseDigits_natAscii (n : Nat) (h : 0 < n) : parseDigits (natAscii n) = some n := by
  obtain ⟨b, t, hbt⟩ := List.exists_cons_of_ne_nil (natAscii_ne_nil n h)
  rw [hbt]
  have : parseDigits (b :: t) = parseDigitsAux 0 (b :: t) := by simp [parseDigits]
  rw [this, ← hbt]
  simp only [natAscii]
  rw [parseDigitsAux_natAsciiAux (n + 1) n 0 (lt_ten_pow n)]
  simp

theorem scanFor_append : ∀ (l r : List Nat) (t : Nat), (∀ x ∈ l, x ≠ t) →
    scanFor t (l ++ t :: r) = some l.length := by
  intro l
  induction l with
  | nil => intro r t _; simp [scanFor]
  | cons b bt ih =>
    intro r t h
    simp only [List.cons_append, scanFor]
    rw [if_neg (h b (by simp))]
    simp only [List.append_eq]
    rw [ih r t (fun x hx => h x (by simp [hx]))]
    simp

theorem decodeCore_int_literal (fuel : Nat) (span : List Nat)
    (hne : span ≠ []) (h101 : ∀ x ∈ span, x ≠ 101) (m : Int)
    (hparse : parseI16 span = some m) :
    decodeCore (fuel + 1) (105 :: (span ++ [101])) = .ok (.Int m) (span.length + 2) := by
  simp only [decodeCore]
  norm_num
  rw [scanFor_append span [] 101 h101]
  simp only [List.take_left]
  rw [if_neg (by simpa [List.length_eq_zero] using hne : ¬ span.length = 0), hparse]

theorem natAscii_digits (n b : Nat) (h : b ∈ natAscii n) : 48 ≤ b ∧ b ≤ 57 :=
  natAsciiAux_digits _ _ _ h

/-- Claim C5 (amended): the integer range actually supported is the 16-bit
signed range of the source's `i16`, not 64-bit: for every integer N with
-32768 <= N <= 32767, decoding the well-formed literal i<N>e succeeds and
returns `Int N`, consuming the whole literal. -/
theorem C5_amended_i16_range (n : Int) (h1 : -32768 ≤ n) (h2 : n ≤ 32767) :
    decode (intLiteral n) = .ok (.Int n) ((intLiteral n).length) := by
  have key : ∃ span : List Nat, intLiteral n = 105 :: (span ++ [101]) ∧
      span ≠ [] ∧ (∀ x ∈ span, x ≠ 101) ∧ parseI16 span = some n := by
    rcases lt_trichotomy n 0 with hn | hn | hn
    · have hm : 0 < n.natAbs := by omega
      refine ⟨45 :: natAscii n.natAbs, ?_, by simp, ?_, ?_⟩
      · simp [intLiteral, if_pos hn, if_neg (show ¬ n = 0 by omega)]
      · intro x hx
        simp only [List.mem_cons] at hx
        rcases hx with rfl | hx
        · omega
        · have := natAscii_digits _ _ hx
          omega
      · have hle : n.natAbs ≤ 32768 := by omega
        have hcast : -((n.natAbs : Int)) = n := by omega
        simp [parseI16, parseDigits_natAscii _ hm, hle, hcast]
        rw [abs_of_neg hn]
        ring
    · refine ⟨[48], by subst hn; rfl, by simp, by simp, by subst hn; rfl⟩
    · have hm : 0 < n.natAbs := by omega
      refine ⟨natAscii n.natAbs, ?_, natAscii_ne_nil _ hm, ?_, ?_⟩
      · simp [intLiteral, if_neg (show ¬ n < 0 by omega), if_neg (show ¬ n = 0 by omega)]
      · intro x hx
        have := natAscii_digits _ _ hx
        omega
      · obtain ⟨b, t, hbt⟩ := List.exists_cons_of_ne_nil (natAscii_ne_nil _ hm)
        have hb : 48 ≤ b ∧ b ≤ 57 := natAscii_digits _ _ (by rw [hbt]; simp)
        have hle : n.natAbs ≤ 32767 := by omega
        rw [hbt]
        simp only [parseI16]
        rw [if_neg (by omega), if_neg (by omega), ← hbt, parseDigits_natAscii _ hm]
        have hcast : ((n.natAbs : Int)) = n := by omega
        simp [hle, hcast]
  obtain ⟨span, hlit, hne, h101, hparse⟩ := key
  rw [hlit]
  simp only [decode]
  have hf : 2 * (105 :: (span ++ [101])).length + 2 =
      (2 * (105 :: (span ++ [101])).length + 1) + 1 := by omega
  rw [hf, decodeCore_int_literal _ span hne h101 n hparse]
  simp

/-- Claim C1 (code bug): `decode` is not total.  It panics (index out of
bounds or `unwrap` of a `from_utf8` error) on the input i42 where the
integer terminator 101 never appears, on the input 4spam where the colon
58 never appears, and on the input 49 58 255 (a one-byte string whose
body 255 is not valid UTF-8). -/
theorem C1_decode_panics :
    decode (strBytes "i42") = DecodeResult.panic ∧
    decode (strBytes "4spam") = DecodeResult.panic ∧
    decode [49, 58, 255] = DecodeResult.panic :=
  ⟨rfl, rfl, rfl⟩

/-- Claim C2 (counterexample): the input d3:fooi42e3:bar4:spame, whose keys
foo and bar are out of ascending byte order, decodes successfully instead of
failing with UnorderedKeys. -/
theorem C2_counterexample :
    isOk (decode (strBytes "d3:fooi42e3:bar4:spame")) = true := rfl

/-- Claim C2 (amended): `decode` performs no key-order or duplicate check:
the unordered-key dictionary decodes to the map with both pairs, and a
repeated key decodes to the map with the last value winning. -/
theorem C2_amended_accepts_unordered_and_duplicate :
    decode (strBytes "d3:fooi42e3:bar4:spame") =
      DecodeResult.ok (BValue.Dict [(strBytes "foo", BValue.Int 42),
        (strBytes "bar", BValue.Str (strBytes "spam"))]) 22 ∧
    decode (strBytes "d1:ai1e1:ai2ee") =
      DecodeResult.ok (BValue.Dict [(strBytes "a", BValue.Int 2)]) 14 :=
  ⟨rfl, rfl⟩

/-- Claim C3 (counterexample): on the input consisting of the single byte
101, `decode` returns `Ok` carrying the fifth variant `BValue.None`, which
is not one of the four public variants. -/
theorem C3_counterexample :
    decode (strBytes "e") = DecodeResult.ok BValue.None 1 ∧
    isPublicVariant BValue.None = false :=
  ⟨rfl, rfl⟩

/-- Claim C3 (amended): the public `BValue` enum has five variants, and the
sentinel `None` escapes to the caller: decoding the input 101 yields
`Ok (None, 1)`. -/
theorem C3_amended_none_escapes :
    decode (strBytes "e") = DecodeResult.ok BValue.None 1 := rfl

/-- Claim C4 (counterexample): the input i042e, an integer literal with a
leading zero, decodes successfully instead of failing with
MalformedInteger. -/
theorem C4_counterexample :
    isOk (decode (strBytes "i042e")) = true := rfl

/-- Claim C4 (amended): `decode` accepts leading zeros and negative zero
and silently normalizes them: i042e decodes to `Int 42` consuming 5 bytes
and i-0e decodes to `Int 0` consuming 4 bytes. -/
theorem C4_amended_normalizes :
    decode (strBytes "i042e") = DecodeResult.ok (BValue.Int 42) 5 ∧
    decode (strBytes "i-0e") = DecodeResult.ok (BValue.Int 0) 4 :=
  ⟨rfl, rfl⟩

/-- Claim C5 (counterexample): 32768 is well inside the 64-bit signed
range, yet decoding i32768e fails (the source parses into `i16`), refuting
the claim that every 64-bit literal decodes to its value. -/
theorem C5_counterexample :
    decode (strBytes "i32768e") = DecodeResult.err "Decoding Error: Ill-formatted Integer." ∧
    isOk (decode (strBytes "i32768e")) = false :=
  ⟨rfl, rfl⟩

/-- Claim C5 (witness): the amended theorem applied at N = -12345. -/
theorem C5_witness :
    decode (intLiteral (-12345)) = DecodeResult.ok (BValue.Int (-12345)) 8 :=
  C5_amended_i16_range (-12345) (by decide) (by decide)

/-- Claim C6 (counterexample): the dictionary di1ei2ee, whose keys decode
as integers, decodes successfully instead of failing with NonStringKey. -/
theorem C6_counterexample :
    isOk (decode (strBytes "di1ei2ee")) = true := rfl

/-- Claim C6 (amended): a non-string value in key position raises no
error: it is parked in the pending-value slot, so di1ei2ee yields the
empty dictionary, and in di1e3:fooe the integer 1 is paired with the later
key foo. -/
theorem C6_amended_nonstring_key_silent :
    decode (strBytes "di1ei2ee") = DecodeResult.ok (BValue.Dict []) 8 ∧
    decode (strBytes "di1e3:fooe") =
      DecodeResult.ok (BValue.Dict [(strBytes "foo", BValue.Int 1)]) 10 :=
  ⟨rfl, rfl⟩

/-- Claim C7 (counterexample): the dictionary d3:fooe, which ends mid-pair
(terminator right after the key foo), decodes successfully to the empty
dictionary instead of failing with TruncatedDictionary. -/
theorem C7_counterexample :
    isOk (decode (strBytes "d3:fooe")) = true := rfl

/-- Claim C7 (amended): a dictionary whose terminator follows an unpaired
key succeeds and silently drops that key, while input that simply ends
after a key fails with the generic empty-input error of the recursive
call, not a dedicated TruncatedDictionary error. -/
theorem C7_amended_unpaired_key_dropped :
    decode (strBytes "d3:fooe") = DecodeResult.ok (BValue.Dict []) 7 ∧
    decode (strBytes "d3:foo") = DecodeResult.err "Decoding Err. Invalid input length." :=
  ⟨rfl, rfl⟩

/-- Claim C8: well-formed integer literals decode to the exact value with
consumed bytes equal to the scanned span length plus 2. -/
theorem C8_integer_examples :
    decode (strBytes "i42e") = DecodeResult.ok (BValue.Int 42) 4 ∧
    decode (strBytes "i0e") = DecodeResult.ok (BValue.Int 0) 3 ∧
    decode (strBytes "i-42e") = DecodeResult.ok (BValue.Int (-42)) 5 :=
  ⟨rfl, rfl, rfl⟩

/-- Claim C9: byte-string decoding returns the declared bytes with
consumed count equal to prefix span plus 1 plus the declared length, and
fails when fewer than the declared bytes remain after the colon. -/
theorem C9_string_examples :
    decode (strBytes "4:spam") = DecodeResult.ok (BValue.Str (strBytes "spam")) 6 ∧
    decode (strBytes "0:") = DecodeResult.ok (BValue.Str []) 2 ∧
    decode (strBytes "4:spa") = DecodeResult.err "Decoding Error. Invalid string length." ∧
    isOk (decode (strBytes "4:spa")) = false :=
  ⟨rfl, rfl, rfl, rfl⟩

/-- Claim C10: whenever `decode` returns `Ok (v, n)`, the consumed count
n satisfies 1 <= n <= length of the input, in every branch including the
recursive list and dictionary loops. -/
theorem C10_consumed_bounds (input : List Nat) (v : BValue) (n : Nat)
    (h : decode input = DecodeResult.ok v n) : 1 ≤ n ∧ n ≤ input.length :=
  (consumedBounds (2 * input.length + 2)).1 input v n h

/-- Claim C10 (witness): the bound instantiated on the input i42e, which
decodes to `Int 42` consuming 4 of its 4 bytes. -/
theorem C10_witness : 1 ≤ 4 ∧ 4 ≤ (strBytes "i42e").length :=
  C10_consumed_bounds (strBytes "i42e") (BValue.Int 42) 4 rfl
